import Mathlib

/-!
# Verification of the firm-name normalizer (`src/script.js`)

Shallow embedding of the normalization core of `script.js`:

* strings are `List Char` (JS strings as sequences of code points; the
  regex classes `\w`, `\s` and the literal character classes are modelled
  over their JS semantics, `\w = [A-Za-z0-9_]`);
* JS runtime values reaching the entry points are modelled by `JSValue`;
* a possibly-`undefined` JS string (e.g. an absent object property) is
  modelled by `Option Str`;
* fuzzy-match scores (doubles in the source) are modelled by `ℚ`; the
  claims about them are order-theoretic only;
* the external Fuse.js matcher is opaque in the source, so the searcher is
  a parameter `search : Str → List MatchCandidate` and facts about it
  enter as hypotheses mirroring the spec's contract for it.
-/

abbrev Str := List Char

/-- JS values as they can reach `cleanName` / `standardizeName` (line 52). -/
inductive JSValue where
  | str (s : Str)
  | num (n : Int)
  | bool (b : Bool)
  | null
  | undefined
  | obj
deriving DecidableEq

/-- JS truthiness of the modelled values (used by `!inputName`, line 53). -/
def jsTruthy : JSValue → Bool
  | .str s => !s.isEmpty
  | .num n => n != 0
  | .bool b => b
  | .null => false
  | .undefined => false
  | .obj => true

/-- The characters removed by `.replace(/[.,&()]/g, '')` (line 46). -/
def isPunct (c : Char) : Bool :=
  c == '.' || c == ',' || c == '&' || c == '(' || c == ')'

/-- JS regex `\w` (word character): `[A-Za-z0-9_]`. -/
def isWordChar (c : Char) : Bool :=
  decide (65 ≤ c.toNat ∧ c.toNat ≤ 90) || decide (97 ≤ c.toNat ∧ c.toNat ≤ 122) ||
  decide (48 ≤ c.toNat ∧ c.toNat ≤ 57) || c == '_'

/-- JS regex `\s`, restricted to its ASCII members plus NBSP (the only
whitespace characters relevant to the development). -/
def isWs (c : Char) : Bool :=
  c == ' ' || c == '\t' || c == '\n' || c == '\r' || c == '\x0b' || c == '\x0c' ||
  c == '\u00A0'

/-- The alternatives of the suffix regex
`\b(inc|corp|llc|lp|co|ltd|group|financial|bank|national association|na|co)\b`
(line 47), in source order (`co` is listed twice there). JS alternation is
first-match-wins in this order at each starting position. -/
def suffixTokens : List Str :=
  ["inc", "corp", "llc", "lp", "co", "ltd", "group", "financial", "bank",
   "national association", "na", "co"].map String.toList

/-- `\b` before a token. Every alternative starts with a word character, so
the boundary holds iff the preceding character (in the original string, as
JS regex scanning does) is absent or not a word character. -/
def boundaryBefore : Option Char → Bool
  | none => true
  | some p => !isWordChar p

/-- `\b` after a token. Every alternative ends with a word character, so the
boundary holds iff the following character is absent or not a word character. -/
def boundaryAfter : Str → Bool
  | [] => true
  | c :: _ => !isWordChar c

/-- Try to match one alternative `t` at the current position of `s`
(`prev` = the character just before this position in the original string).
On success, returns the token's last character (the new `prev`) and the
rest of the string after the match. -/
def tryToken (prev : Option Char) (s : Str) (t : Str) : Option (Char × Str) :=
  if boundaryBefore prev && t.isPrefixOf s && boundaryAfter (s.drop t.length) then
    match t.getLast? with
    | some lc => some (lc, s.drop t.length)
    | none => none
  else none

/-- First alternative (in regex order) matching at the current position. -/
def firstToken (prev : Option Char) (s : Str) : List Str → Option (Char × Str)
  | [] => none
  | t :: ts =>
    match tryToken prev s t with
    | some r => some r
    | none => firstToken prev s ts

/-- One global-replace scan deleting every match of the suffix regex, fueled
for structural recursion (`fuel ≥ s.length` always holds at the call sites;
each step consumes at least one character). -/
def stripTokensAux : Nat → Option Char → Str → Str
  | 0, _, s => s
  | _ + 1, _, [] => []
  | fuel + 1, prev, c :: rest =>
    match firstToken prev (c :: rest) suffixTokens with
    | some (lc, rem) => stripTokensAux fuel (some lc) rem
    | none => c :: stripTokensAux fuel (some c) rest

/-- `.replace(/\b(inc|corp|...)\b/g, '')` (line 47). -/
def stripTokens (s : Str) : Str := stripTokensAux s.length none s

/-- `.replace(/\s+/g, ' ')` (line 48): every maximal run of whitespace
becomes one space. -/
def collapseWs : Str → Str
  | [] => []
  | c :: rest =>
    match rest with
    | [] => [if isWs c then ' ' else c]
    | c2 :: _ =>
      if isWs c && isWs c2 then collapseWs rest
      else (if isWs c then ' ' else c) :: collapseWs rest

/-- `.trim()` (line 49). -/
def jsTrim (s : Str) : Str := ((s.dropWhile isWs).reverse.dropWhile isWs).reverse

/-- `cleanName` (lines 42-50): type check, lower-casing, punctuation
removal, suffix-token removal, whitespace collapse, trim — in that order. -/
def cleanName (v : JSValue) : Str :=
  match v with
  | .str s =>
    if s.isEmpty then []
    else jsTrim (collapseWs (stripTokens ((s.map Char.toLower).filter (fun c => !isPunct c))))
  | _ => []

/-- The knowledge base as loaded (an object with a `variants` mapping and an
`allKnownVariants` array, lines 25-32). -/
structure KB where
  variants : List (Str × Str)
  allKnownVariants : List Str

/-- `knowledgeBase.variants[k]`: `undefined` (`none`) when absent. -/
def lookupVariant (kb : KB) (k : Str) : Option Str :=
  (kb.variants.find? (fun p => decide (p.1 = k))).map (fun p => p.2)

/-- JS truthiness of a possibly-`undefined` string. -/
def jsStrTruthy : Option Str → Bool
  | some l => !l.isEmpty
  | none => false

/-- One Fuse.js result: `{item, score}`. -/
structure MatchCandidate where
  item : Str
  score : ℚ

/-- The caller-side confidence threshold `0.35` (line 65). -/
def confidenceThreshold : ℚ := 35 / 100

/-- The sentinel label. -/
def UNKNOWN : Str := "UNKNOWN".toList

/-- Lines 63-70: take the fuzzy results; accept the best candidate iff its
score is strictly below the threshold, returning `variants[best.item]`
verbatim (which is `undefined` if `best.item` is not a key). -/
def fuzzyPath (kb : KB) (results : List MatchCandidate) : Option Str :=
  match results with
  | [] => some UNKNOWN
  | r :: _ =>
    if r.score < confidenceThreshold then lookupVariant kb r.item else some UNKNOWN

/-- `standardizeName` (lines 52-71). The result is an `Option Str` because
the fuzzy branch returns `knowledgeBase.variants[bestMatchVariant]` without
any check, which is `undefined` when the variant is not a key. -/
def standardizeName (kb : KB) (search : Str → List MatchCandidate)
    (inputName : JSValue) : Option Str :=
  if !jsTruthy inputName then some UNKNOWN
  else if (cleanName inputName).isEmpty then some UNKNOWN
  else if jsStrTruthy (lookupVariant kb (cleanName inputName)) then
    lookupVariant kb (cleanName inputName)
  else fuzzyPath kb (search (cleanName inputName))

/-! ## Knowledge-base load (`initialize`, lines 20-39) -/

/-- Outcomes of the external fetch-and-parse of `data/knowledge_base.json`
(lines 23-25): rejection of `fetch`, a non-ok response, a body that is not
valid JSON, or a parsed document (the pair of fields the code reads). -/
inductive FetchResult where
  | unreachable
  | httpError
  | badJson
  | parsed (variants : List (Str × Str)) (allKnownVariants : List Str)

/-- The single load failure kind: all three failure sources land in the
`catch` block (lines 35-38) and surface the same error state. -/
inductive LoadError where
  | loadFailed
deriving DecidableEq

/-- `initialize` (lines 20-39) as the knowledge-base load: failures become
`LoadError`; a successfully parsed document is installed verbatim — the
code performs no structural or consistency validation on it. -/
def loadKnowledgeBase : FetchResult → Except LoadError KB
  | .unreachable => .error .loadFailed
  | .httpError => .error .loadFailed
  | .badJson => .error .loadFailed
  | .parsed variants allKnown => .ok ⟨variants, allKnown⟩

/-- The consistency invariant claimed for a successful load: every variant
in the fuzzy corpus is a key of the variant index (so a fuzzy-returned
variant always resolves to an existing label). -/
def consistentKB (kb : KB) : Prop :=
  ∀ v ∈ kb.allKnownVariants, (lookupVariant kb v).isSome = true

/-! ## Batch runner (`processData`, lines 116-151) -/

/-- A parsed CSV row: column name to cell value (`row[column]` is
`undefined` when the column is absent). -/
abbrev Row := List (Str × JSValue)

/-- `row[column]`. -/
def getField (row : Row) (col : Str) : JSValue :=
  match row.find? (fun p => decide (p.1 = col)) with
  | some p => p.2
  | none => .undefined

/-- One element of `normalizedResults` (lines 131-134). -/
structure PRecord where
  input : JSValue
  std : Option Str
deriving DecidableEq

/-- Lines 128-134: the record pushed for one row. -/
def processRow (kb : KB) (search : Str → List MatchCandidate) (col : Str)
    (row : Row) : PRecord :=
  { input := getField row col, std := standardizeName kb search (getField row col) }

/-- `processData`'s chunked loop (lines 123-150): 1000-row slices, appended
in order; the `setTimeout` yield between slices carries no data and is
dropped by the embedding. -/
def processData (kb : KB) (search : Str → List MatchCandidate) (col : Str)
    (rows : List Row) : List PRecord :=
  if h : rows = [] then []
  else ((rows.take 1000).map (processRow kb search col)) ++
    processData kb search col (rows.drop 1000)
termination_by rows.length
decreasing_by
  have hpos : 0 < rows.length := List.length_pos.mpr h
  simp only [List.length_drop]
  omega

/-- The spec-side reference (§4.5): apply the Standardizer independently
and order-preservingly to each row, one record per row. -/
def seqNormalize (kb : KB) (search : Str → List MatchCandidate) (col : Str)
    (rows : List Row) : List PRecord :=
  rows.map (processRow kb search col)

/-! ## Grouping and display (`displayResults`, lines 161-210) -/

/-- A NormalizedRecord of the data model (§3): both fields are strings. -/
structure NRecord where
  input : Str
  std : Str

/-- One step of the `reduce` at lines 163-173: create the group on first
sight of a key, then append the raw name unless it is already present. -/
def addRecord (acc : List (Str × List Str)) (r : NRecord) : List (Str × List Str) :=
  if (acc.find? (fun p => decide (p.1 = r.std))).isSome then
    acc.map (fun p =>
      if p.1 = r.std then (p.1, if r.input ∈ p.2 then p.2 else p.2 ++ [r.input]) else p)
  else acc ++ [(r.std, [r.input])]

/-- The grouping `reduce` (lines 163-173). A JS object with string keys is
modelled as an association list in key-insertion order. -/
def groupRecords (rs : List NRecord) : List (Str × List Str) :=
  rs.foldl addRecord []

/-- First-occurrence deduplication (the reference form of a group's
contents): keep each string the first time it appears. -/
def firstDedupAux (seen : List Str) : List Str → List Str
  | [] => []
  | a :: rest =>
    if a ∈ seen then firstDedupAux seen rest else a :: firstDedupAux (a :: seen) rest

/-- First-occurrence deduplication of a list. -/
def firstDedup (l : List Str) : List Str := firstDedupAux [] l

/-- The comparator at lines 178-182: `UNKNOWN` sorts after everything, all
other keys by `localeCompare`. The locale collation is external, so it is a
parameter `cmp` (negative/zero/positive like `localeCompare`). -/
def jsCompare (cmp : Str → Str → Int) (a b : Str) : Int :=
  if a = UNKNOWN then 1 else if b = UNKNOWN then -1 else cmp a b

/-- Stable insertion of `x` into a list ordered by a JS comparator
(`compare x y ≤ 0` keeps `x` before `y`). -/
def insertCmp (compare : Str → Str → Int) (x : Str) : List Str → List Str
  | [] => [x]
  | y :: rest => if compare x y ≤ 0 then x :: y :: rest else y :: insertCmp compare x rest

/-- `Array.prototype.sort` with a comparator, modelled as stable insertion
sort (the ECMAScript spec fixes only the sorted, stable result). -/
def jsSortKeys (compare : Str → Str → Int) (l : List Str) : List Str :=
  l.foldr (insertCmp compare) []

/-- `sortedKeys` (lines 178-182): the group keys sorted by the comparator. -/
def sortedGroupKeys (cmp : Str → Str → Int) (rs : List NRecord) : List Str :=
  jsSortKeys (jsCompare cmp) ((groupRecords rs).map (fun p => p.1))

/-- Lines 192-201: the variant list rendered for one group is
`variants.slice(0, 100)`, plus the count of omitted entries reported by the
`...and N more.` item when any were omitted. -/
def displayGroup (variants : List Str) : List Str × Nat :=
  (variants.take 100, if 100 < variants.length then variants.length - 100 else 0)

/-- Lines 213-228: the download handler serializes `normalizedResults`
itself — the full ordered record sequence, not the display view. -/
def downloadRows (records : List PRecord) : List PRecord := records

/-! ## Concrete knowledge bases used by the scenario claims -/

/-- The §8 scenario-1 knowledge base. -/
def kbJPM : KB :=
  ⟨[("jpmorgan chase".toList, "JPMorgan Chase & Co.".toList)], ["jpmorgan chase".toList]⟩

/-- A parsed-but-inconsistent knowledge base: the corpus variant `zzz` is
not a key of the variant index. -/
def kbBad : KB := ⟨[("a".toList, "A".toList)], ["zzz".toList]⟩

/-- A small well-formed knowledge base for witnesses. -/
def kbAcme : KB := ⟨[("acme".toList, "Acme Corporation".toList)], ["acme".toList]⟩

/-- A knowledge base whose only label is the empty string (falsy). -/
def kbEmptyLabel : KB := ⟨[("acme".toList, [])], ["acme".toList]⟩

/-- Reference form of the grouped view's key list: the distinct
standardized labels in first-seen order. -/
def groupSpecKeys (rs : List NRecord) : List Str := firstDedup (rs.map (fun r => r.std))

/-- Reference form of one group's contents: the raw names mapped to `k`, in
first-seen order, without exact-string duplicates. -/
def groupSpecContents (rs : List NRecord) (k : Str) : List Str :=
  firstDedup ((rs.filter (fun r => decide (r.std = k))).map (fun r => r.input))

/-! ## Theorems -/

theorem cleanName_ne_nil_truthy (v : JSValue) (h : cleanName v ≠ []) : jsTruthy v = true := by
  cases v with
  | str s =>
    by_cases hs : s.isEmpty
    · exact absurd (by simp [cleanName, hs]) h
    · simp [jsTruthy, hs]
  | num n => exact absurd rfl h
  | bool b => exact absurd rfl h
  | null => exact absurd rfl h
  | undefined => exact absurd rfl h
  | obj => exact absurd rfl h

theorem fuzzyPath_total (kb : KB) (results : List MatchCandidate)
    (hres : ∀ r ∈ results, ∃ lbl, lookupVariant kb r.item = some lbl ∧ lbl ≠ []) :
    ∃ lbl, fuzzyPath kb results = some lbl ∧ lbl ≠ [] := by
  cases results with
  | nil => exact ⟨UNKNOWN, rfl, by decide⟩
  | cons r rest =>
    by_cases hsc : r.score < confidenceThreshold
    · obtain ⟨lbl, hl, hne⟩ := hres r (List.mem_cons_self r rest)
      exact ⟨lbl, by simp [fuzzyPath, hsc, hl], hne⟩
    · exact ⟨UNKNOWN, by simp [fuzzyPath, hsc], by decide⟩

/-- C1: `standardize` is total — for every modelled input value (null,
empty string, numbers, booleans, objects, strings), under the knowledge-base
consistency invariant (every fuzzy-returned variant resolves to a non-empty
label), `standardizeName` returns a defined, non-empty label (a real label
or the sentinel `UNKNOWN`). Termination without exceptions is by
construction of the total embedding. -/
theorem standardize_total (kb : KB) (search : Str → List MatchCandidate)
    (hwf : ∀ c r, r ∈ search c → ∃ lbl, lookupVariant kb r.item = some lbl ∧ lbl ≠ [])
    (v : JSValue) :
    ∃ lbl, standardizeName kb search v = some lbl ∧ lbl ≠ [] := by
  cases h1 : jsTruthy v with
  | false => exact ⟨UNKNOWN, by simp [standardizeName, h1], by decide⟩
  | true =>
    cases h2 : (cleanName v).isEmpty with
    | true => exact ⟨UNKNOWN, by simp [standardizeName, h1, h2], by decide⟩
    | false =>
      cases hl : lookupVariant kb (cleanName v) with
      | none =>
        obtain ⟨lbl, hfl, hne⟩ := fuzzyPath_total kb (search (cleanName v)) (fun r hr => hwf _ r hr)
        exact ⟨lbl, by simp [standardizeName, h1, h2, hl, jsStrTruthy, hfl], hne⟩
      | some label =>
        cases h3 : label.isEmpty with
        | false =>
          exact ⟨label, by simp [standardizeName, h1, h2, hl, jsStrTruthy, h3], by simpa using h3⟩
        | true =>
          obtain ⟨lbl, hfl, hne⟩ := fuzzyPath_total kb (search (cleanName v)) (fun r hr => hwf _ r hr)
          exact ⟨lbl, by simp [standardizeName, h1, h2, hl, jsStrTruthy, h3, hfl], hne⟩

/-- C1 witness: a concrete run (`null` input, empty search results). -/
theorem standardize_total_witness :
    ∃ lbl, standardizeName kbAcme (fun _ => []) JSValue.null = some lbl ∧ lbl ≠ [] :=
  standardize_total kbAcme (fun _ => []) (fun _ r hr => nomatch hr) JSValue.null

/-- C2: exact-match precedence — whenever the cleaned key of a raw name is
present in `variants` with a (data-model-invariant) non-empty label, the
result is that label, for every fuzzy searcher whatsoever: the fuzzy
matcher's output has no influence on the result. -/
theorem exact_match_wins (kb : KB) (search : Str → List MatchCandidate)
    (v : JSValue) (k label : Str)
    (hclean : cleanName v = k) (hk : k ≠ [])
    (hlook : lookupVariant kb k = some label) (hlabel : label ≠ []) :
    standardizeName kb search v = some label := by
  have ht : jsTruthy v = true := cleanName_ne_nil_truthy v (by rw [hclean]; exact hk)
  have hke : k.isEmpty = false := by simpa using hk
  have hle : label.isEmpty = false := by simpa using hlabel
  simp [standardizeName, ht, hclean, hke, hlook, jsStrTruthy, hle]

/-- C2 witness: exact hit wins even though a fuzzy candidate with score 0
exists for a different variant. -/
theorem exact_match_wins_witness :
    standardizeName kbAcme (fun _ => [⟨"totally different".toList, 0⟩])
      (.str "Acme Inc.".toList) = some ("Acme Corporation".toList) :=
  exact_match_wins kbAcme _ _ "acme".toList "Acme Corporation".toList
    (by decide) (by decide) (by decide) (by decide)

/-- C3: strict threshold boundary — when the code reaches the fuzzy path
(no truthy exact match), a best candidate scoring exactly the 0.35
confidence threshold is rejected (`UNKNOWN`), while a best candidate
scoring strictly below it is accepted and `variants[best.item]` returned. -/
theorem threshold_strict (kb : KB) (search : Str → List MatchCandidate) (v : JSValue)
    (r : MatchCandidate) (rest : List MatchCandidate)
    (hcl : cleanName v ≠ [])
    (hmiss : jsStrTruthy (lookupVariant kb (cleanName v)) = false)
    (hsearch : search (cleanName v) = r :: rest) :
    (r.score = confidenceThreshold → standardizeName kb search v = some UNKNOWN) ∧
    (r.score < confidenceThreshold → standardizeName kb search v = lookupVariant kb r.item) := by
  have ht := cleanName_ne_nil_truthy v hcl
  have hke : (cleanName v).isEmpty = false := by simpa using hcl
  constructor
  · intro he
    simp [standardizeName, ht, hke, hmiss, hsearch, fuzzyPath, he, lt_irrefl]
  · intro hlt
    simp [standardizeName, ht, hke, hmiss, hsearch, fuzzyPath, hlt]

/-- C3 witness: a best candidate with score exactly `0.35` is rejected. -/
theorem threshold_strict_witness :
    standardizeName kbJPM
      (fun _ => [⟨"jpmorgan chase".toList, confidenceThreshold⟩])
      (.str "JP Morgan".toList) = some UNKNOWN :=
  (threshold_strict kbJPM _ _ ⟨"jpmorgan chase".toList, confidenceThreshold⟩ []
    (by decide) (by decide) rfl).1 rfl

/-- C10: the exact-match branch fires only on a truthy label — when the
cleaned key is present but mapped to the empty string, `standardizeName`
skips the exact branch and produces exactly the fuzzy-path result. -/
theorem falsy_label_fuzzy (kb : KB) (search : Str → List MatchCandidate)
    (v : JSValue) (k : Str)
    (hclean : cleanName v = k) (hk : k ≠ [])
    (hlook : lookupVariant kb k = some []) :
    standardizeName kb search v = fuzzyPath kb (search k) := by
  have ht : jsTruthy v = true := cleanName_ne_nil_truthy v (by rw [hclean]; exact hk)
  have hke : k.isEmpty = false := by simpa using hk
  simp [standardizeName, ht, hclean, hke, hlook, jsStrTruthy]

/-- C10 witness: key `acme` present with label `""`; the result is the
fuzzy path's `UNKNOWN`, not the stored (empty) label. -/
theorem falsy_label_fuzzy_witness :
    standardizeName kbEmptyLabel (fun _ => []) (.str "Acme".toList) = some UNKNOWN := by
  have h := falsy_label_fuzzy kbEmptyLabel (fun _ => []) (.str "Acme".toList)
    "acme".toList (by decide) (by decide) (by decide)
  simpa [fuzzyPath] using h

/-- C6 counterexample: `"JPMorgan Chase & Co."` canonicalizes to
`"jpmorgan chase"` (the `co` suffix token is stripped too), not to the
claimed `"jpmorgan chase co"`, and the exact-match lookup therefore
succeeds rather than failing over to the fuzzy matcher. -/
theorem scenario_jpm_cex :
    cleanName (.str "JPMorgan Chase & Co.".toList) = "jpmorgan chase".toList ∧
    cleanName (.str "JPMorgan Chase & Co.".toList) ≠ "jpmorgan chase co".toList ∧
    jsStrTruthy (lookupVariant kbJPM (cleanName (.str "JPMorgan Chase & Co.".toList))) = true := by
  decide

/-- C6 amended: with the scenario knowledge base, the input
`"JPMorgan Chase & Co."` canonicalizes to `"jpmorgan chase"`, hits the
exact match, and outputs `"JPMorgan Chase & Co."` without consulting the
fuzzy matcher (the output value itself matches the original claim). -/
theorem scenario_jpm_amended (search : Str → List MatchCandidate) :
    standardizeName kbJPM search (.str "JPMorgan Chase & Co.".toList) =
      some ("JPMorgan Chase & Co.".toList) := rfl

/-- C5 counterexample: a successfully parsed document whose corpus
variant `"zzz"` is not a key of the variant index is accepted by the load
verbatim, violating the claimed consistency invariant; consequently a fuzzy
hit on `"zzz"` makes `standardizeName` return `undefined` (`none`). -/
theorem load_no_validation_cex :
    loadKnowledgeBase (.parsed [("a".toList, "A".toList)] ["zzz".toList]) = .ok kbBad ∧
    ¬ consistentKB kbBad ∧
    standardizeName kbBad (fun _ => [⟨"zzz".toList, 0⟩]) (.str "zz".toList) = none := by
  refine ⟨rfl, ?_, ?_⟩
  · intro h
    have h2 := h "zzz".toList (by decide)
    rw [show lookupVariant kbBad "zzz".toList = none from by decide] at h2
    simp at h2
  · have h0 : (0 : ℚ) < confidenceThreshold := by norm_num [confidenceThreshold]
    have hc : cleanName (.str "zz".toList) = "zz".toList := by decide
    unfold standardizeName
    rw [hc]
    simp only [show jsTruthy (.str "zz".toList) = true from by decide,
      show lookupVariant kbBad "zz".toList = none from by decide]
    simp [fuzzyPath, h0, jsStrTruthy]
    decide

/-- C5 amended: the load fails with `LoadError` exactly when the source
is unreachable, the response is not ok, or the body is not parseable JSON;
every successfully parsed document is accepted verbatim — no structural or
consistency validation is performed, so success does not establish the
consistency invariant. -/
theorem load_amended :
    loadKnowledgeBase .unreachable = .error .loadFailed ∧
    loadKnowledgeBase .httpError = .error .loadFailed ∧
    loadKnowledgeBase .badJson = .error .loadFailed ∧
    (∀ variants allKnown, loadKnowledgeBase (.parsed variants allKnown) = .ok ⟨variants, allKnown⟩) ∧
    (∀ src, (∃ kb, loadKnowledgeBase src = .ok kb) ↔ ∃ vs ks, src = FetchResult.parsed vs ks) := by
  refine ⟨rfl, rfl, rfl, fun _ _ => rfl, fun src => ?_⟩
  cases src <;> simp [loadKnowledgeBase]

/-- C4 counterexample: `canonicalize` is not idempotent.
`canonicalize("national  association")` (two spaces) = `"national
association"` — the suffix regex requires a single space so it does not
match, and whitespace collapse then creates the adjacent word pair — but
`canonicalize("national association")` = `""`. -/
theorem canonicalize_not_idempotent_cex :
    cleanName (.str (cleanName (.str "national  association".toList))) ≠
      cleanName (.str "national  association".toList) := by decide

/-- C8: the chunked batch runner is a pure refinement of the sequential
map — for every row sequence and column, the 1000-row chunked loop produces
exactly `rows.map` of the per-row standardization, in input order; chunking
changes neither values nor ordering and no row depends on another. -/
theorem processData_eq_seq (kb : KB) (search : Str → List MatchCandidate) (col : Str)
    (rows : List Row) :
    processData kb search col rows = seqNormalize kb search col rows := by
  suffices h : ∀ n (rows : List Row), rows.length ≤ n →
      processData kb search col rows = seqNormalize kb search col rows from
    h rows.length rows le_rfl
  intro n
  induction n with
  | zero =>
    intro rows hle
    have hnil : rows = [] := List.length_eq_zero.mp (Nat.le_zero.mp hle)
    subst hnil
    rw [processData]
    simp [seqNormalize]
  | succ n ih =>
    intro rows hle
    by_cases hr : rows = []
    · subst hr
      rw [processData]
      simp [seqNormalize]
    · rw [processData, dif_neg hr,
        ih (rows.drop 1000) (by
          have : 0 < rows.length := List.length_pos.mpr hr
          simp only [List.length_drop]
          omega)]
      unfold seqNormalize
      rw [← List.map_append, List.take_append_drop]

/-- C9: display capping is presentation-only — the shown list for a group
is the first 100 entries of that group's variants, the omitted-entry count
is reported exactly, nothing is shown beyond 100, and the export hands over
the full ordered record sequence unchanged. -/
theorem display_cap_presentation_only (rs : List NRecord) (records : List PRecord)
    (p : Str × List Str) (hp : p ∈ groupRecords rs) :
    (displayGroup p.2).1 = p.2.take 100 ∧
    (displayGroup p.2).1.length ≤ 100 ∧
    (displayGroup p.2).1.length + (displayGroup p.2).2 = p.2.length ∧
    (p.2.length ≤ 100 → (displayGroup p.2).1 = p.2 ∧ (displayGroup p.2).2 = 0) ∧
    downloadRows records = records := by
  refine ⟨rfl, ?_, ?_, fun hlen => ⟨?_, ?_⟩, rfl⟩
  · simp [displayGroup]
  · by_cases h : 100 < p.2.length <;> simp [displayGroup, h, List.length_take] <;> omega
  · simp [displayGroup, List.take_of_length_le hlen]
  · simp [displayGroup]
    omega

/-- C9 witness: a concrete one-record grouping. -/
theorem display_cap_witness :
    (displayGroup (("A".toList, ["a".toList]) : Str × List Str).2).1.length ≤ 100 :=
  (display_cap_presentation_only [⟨"a".toList, "A".toList⟩] []
    ("A".toList, ["a".toList]) (by decide)).2.1

theorem mem_firstDedupAux (x : Str) : ∀ (l seen : List Str),
    x ∈ firstDedupAux seen l ↔ (x ∈ l ∧ x ∉ seen) := by
  intro l
  induction l with
  | nil => intro seen; simp [firstDedupAux]
  | cons a rest ih =>
    intro seen
    by_cases ha : a ∈ seen
    · simp only [firstDedupAux, if_pos ha, ih, List.mem_cons]
      constructor
      · rintro ⟨hr, hs⟩; exact ⟨Or.inr hr, hs⟩
      · rintro ⟨he | hr, hs⟩
        · exact absurd (he ▸ ha) hs
        · exact ⟨hr, hs⟩
    · simp only [firstDedupAux, if_neg ha, List.mem_cons, ih]
      constructor
      · rintro (rfl | ⟨hr, hs⟩)
        · exact ⟨Or.inl rfl, ha⟩
        · exact ⟨Or.inr hr, fun hx => hs (Or.inr hx)⟩
      · rintro ⟨rfl | hr, hs⟩
        · exact Or.inl rfl
        · by_cases hx : x = a
          · exact Or.inl hx
          · exact Or.inr ⟨hr, fun h => h.elim hx hs⟩

theorem nodup_firstDedupAux : ∀ (l seen : List Str), (firstDedupAux seen l).Nodup := by
  intro l
  induction l with
  | nil => intro seen; simp [firstDedupAux]
  | cons a rest ih =>
    intro seen
    by_cases ha : a ∈ seen
    · simpa [firstDedupAux, ha] using ih seen
    · simp only [firstDedupAux, if_neg ha, List.nodup_cons]
      refine ⟨fun hmem => ?_, ih _⟩
      exact ((mem_firstDedupAux a rest (a :: seen)).1 hmem).2 (List.mem_cons_self a seen)

theorem firstDedupAux_append (a : Str) : ∀ (l seen : List Str),
    firstDedupAux seen (l ++ [a]) =
      firstDedupAux seen l ++ (if a ∈ seen ∨ a ∈ l then [] else [a]) := by
  intro l
  induction l with
  | nil =>
    intro seen
    by_cases h : a ∈ seen <;> simp [firstDedupAux, h]
  | cons b rest ih =>
    intro seen
    by_cases hb : b ∈ seen
    · rw [List.cons_append, firstDedupAux, if_pos hb, ih seen]
      have hiff : (a ∈ seen ∨ a ∈ rest) ↔ (a ∈ seen ∨ a ∈ b :: rest) := by
        simp only [List.mem_cons]
        constructor
        · tauto
        · rintro (h | rfl | h)
          · exact Or.inl h
          · exact Or.inl hb
          · exact Or.inr h
      rw [show firstDedupAux seen (b :: rest) = firstDedupAux seen rest from by
        rw [firstDedupAux, if_pos hb]]
      rw [if_congr hiff rfl rfl]
    · rw [List.cons_append, firstDedupAux, if_neg hb, ih (b :: seen)]
      have hiff : (a ∈ b :: seen ∨ a ∈ rest) ↔ (a ∈ seen ∨ a ∈ b :: rest) := by
        simp only [List.mem_cons]
        tauto
      rw [show firstDedupAux seen (b :: rest) = b :: firstDedupAux (b :: seen) rest from by
        rw [firstDedupAux, if_neg hb]]
      rw [if_congr hiff rfl rfl, List.cons_append]

theorem mem_firstDedup (x : Str) (l : List Str) : x ∈ firstDedup l ↔ x ∈ l := by
  simp [firstDedup, mem_firstDedupAux]

theorem nodup_firstDedup (l : List Str) : (firstDedup l).Nodup := nodup_firstDedupAux l []

theorem firstDedup_append (l : List Str) (a : Str) :
    firstDedup (l ++ [a]) = firstDedup l ++ (if a ∈ l then [] else [a]) := by
  simp [firstDedup, firstDedupAux_append]

theorem groupRecords_canon (rs : List NRecord) :
    groupRecords rs = (groupSpecKeys rs).map (fun k => (k, groupSpecContents rs k)) := by
  induction rs using List.reverseRecOn with
  | nil => rfl
  | append_singleton rs r ih =>
    have hstep : groupRecords (rs ++ [r]) = addRecord (groupRecords rs) r := by
      simp [groupRecords, List.foldl_append]
    rw [hstep, ih]
    by_cases hmem : r.std ∈ rs.map (fun x => x.std)
    · have hkeys : groupSpecKeys (rs ++ [r]) = groupSpecKeys rs := by
        simp [groupSpecKeys, List.map_append, firstDedup_append, hmem]
      have hk' : r.std ∈ groupSpecKeys rs := by
        simpa [groupSpecKeys, mem_firstDedup] using hmem
      have hfind : (((groupSpecKeys rs).map (fun k => (k, groupSpecContents rs k))).find?
          (fun p => decide (p.1 = r.std))).isSome = true := by
        rw [List.find?_isSome]
        exact ⟨(r.std, groupSpecContents rs r.std), List.mem_map_of_mem _ hk', by simp⟩
      rw [addRecord, if_pos hfind, hkeys, List.map_map]
      apply List.map_congr_left
      intro k hk
      show (if k = r.std then
          (k, if r.input ∈ groupSpecContents rs k then groupSpecContents rs k
              else groupSpecContents rs k ++ [r.input])
        else (k, groupSpecContents rs k)) = (k, groupSpecContents (rs ++ [r]) k)
      by_cases hkr : k = r.std
      · rw [if_pos hkr]
        have hrs : r.std = k := hkr.symm
        have hf1 : List.filter (fun r' => decide (r'.std = k)) [r] = [r] := by simp [hrs]
        have hcont : groupSpecContents (rs ++ [r]) k =
            if r.input ∈ groupSpecContents rs k then groupSpecContents rs k
            else groupSpecContents rs k ++ [r.input] := by
          rw [groupSpecContents, List.filter_append, hf1, List.map_append]
          simp only [List.map_cons, List.map_nil]
          rw [firstDedup_append]
          by_cases hin : r.input ∈ (rs.filter (fun r' => decide (r'.std = k))).map
              (fun r' => r'.input)
          · rw [if_pos hin, List.append_nil, groupSpecContents,
              if_pos ((mem_firstDedup _ _).2 hin)]
          · rw [if_neg hin, groupSpecContents,
              if_neg (fun hc => hin ((mem_firstDedup _ _).1 hc))]
        rw [hcont]
      · rw [if_neg hkr]
        have hrs : ¬ r.std = k := fun he => hkr he.symm
        have hf1 : List.filter (fun r' => decide (r'.std = k)) [r] = [] := by simp [hrs]
        have hcont : groupSpecContents (rs ++ [r]) k = groupSpecContents rs k := by
          rw [groupSpecContents, List.filter_append, hf1, List.append_nil, groupSpecContents]
        rw [hcont]
    · have hkeys : groupSpecKeys (rs ++ [r]) = groupSpecKeys rs ++ [r.std] := by
        simp [groupSpecKeys, List.map_append, firstDedup_append, hmem]
      have hfind : (((groupSpecKeys rs).map (fun k => (k, groupSpecContents rs k))).find?
          (fun p => decide (p.1 = r.std))).isSome = false := by
        rw [Bool.eq_false_iff]
        intro hf
        obtain ⟨p, hp, hpred⟩ := List.find?_isSome.1 hf
        obtain ⟨k, hkmem, rfl⟩ := List.mem_map.1 hp
        have hkr : k = r.std := by simpa using hpred
        subst hkr
        exact hmem ((mem_firstDedup _ _).1 hkmem)
      rw [addRecord, hfind]
      simp only [Bool.false_eq_true, if_false]
      rw [hkeys, List.map_append, List.map_cons, List.map_nil]
      congr 1
      · apply List.map_congr_left
        intro k hk
        have hkr : ¬ r.std = k := by
          intro he
          exact hmem (he ▸ (mem_firstDedup _ _).1 hk)
        have hf1 : List.filter (fun r' => decide (r'.std = k)) [r] = [] := by simp [hkr]
        have hcont : groupSpecContents (rs ++ [r]) k = groupSpecContents rs k := by
          rw [groupSpecContents, List.filter_append, hf1, List.append_nil, groupSpecContents]
        rw [hcont]
      · have hnone : rs.filter (fun r' => decide (r'.std = r.std)) = [] := by
          rw [List.filter_eq_nil_iff]
          intro x hx
          simp only [decide_eq_true_eq]
          intro he
          exact hmem (List.mem_map.2 ⟨x, hx, he⟩)
        have hcont : groupSpecContents (rs ++ [r]) r.std = [r.input] := by
          rw [groupSpecContents, List.filter_append, hnone]
          simp [firstDedup, firstDedupAux]
        rw [hcont]

theorem groupRecords_keys (rs : List NRecord) :
    (groupRecords rs).map (fun p => p.1) = groupSpecKeys rs := by
  rw [groupRecords_canon, List.map_map]
  simp [Function.comp_def]

theorem insertCmp_perm (compare : Str → Str → Int) (x : Str) :
    ∀ l : List Str, (insertCmp compare x l).Perm (x :: l) := by
  intro l
  induction l with
  | nil => exact List.Perm.refl _
  | cons y rest ih =>
    by_cases h : compare x y ≤ 0
    · rw [insertCmp, if_pos h]
    · rw [insertCmp, if_neg h]
      exact (ih.cons y).trans (List.Perm.swap x y rest)

theorem jsSortKeys_perm (compare : Str → Str → Int) :
    ∀ l : List Str, (jsSortKeys compare l).Perm l := by
  intro l
  induction l with
  | nil => exact List.Perm.refl _
  | cons x rest ih =>
    exact (insertCmp_perm compare x _).trans (ih.cons x)

theorem insertCmp_pairwise (compare : Str → Str → Int)
    (htrans : ∀ a b c, compare a b ≤ 0 → compare b c ≤ 0 → compare a c ≤ 0)
    (x : Str) :
    ∀ l : List Str, l.Pairwise (fun a b => compare a b ≤ 0) →
      (∀ y ∈ l, compare x y ≤ 0 ∨ compare y x ≤ 0) →
      (insertCmp compare x l).Pairwise (fun a b => compare a b ≤ 0) := by
  intro l
  induction l with
  | nil => intro _ _; simp [insertCmp]
  | cons y rest ih =>
    intro hp htot
    obtain ⟨hy, hrest⟩ := List.pairwise_cons.1 hp
    by_cases h : compare x y ≤ 0
    · rw [insertCmp, if_pos h]
      refine List.pairwise_cons.2 ⟨?_, hp⟩
      intro z hz
      rcases List.mem_cons.1 hz with rfl | hz'
      · exact h
      · exact htrans x y z h (hy z hz')
    · rw [insertCmp, if_neg h]
      refine List.pairwise_cons.2 ⟨?_, ?_⟩
      · intro z hz
        have hz' := (insertCmp_perm compare x rest).mem_iff.1 hz
        rcases List.mem_cons.1 hz' with rfl | hz''
        · rcases htot y (List.mem_cons_self y rest) with hc | hc
          · exact absurd hc h
          · exact hc
        · exact hy z hz''
      · exact ih hrest (fun z hz => htot z (List.mem_cons_of_mem y hz))

theorem jsSortKeys_pairwise (compare : Str → Str → Int)
    (htrans : ∀ a b c, compare a b ≤ 0 → compare b c ≤ 0 → compare a c ≤ 0) :
    ∀ l : List Str, l.Nodup →
      (∀ a ∈ l, ∀ b ∈ l, a ≠ b → (compare a b ≤ 0 ∨ compare b a ≤ 0)) →
      (jsSortKeys compare l).Pairwise (fun a b => compare a b ≤ 0) := by
  intro l
  induction l with
  | nil => intro _ _; simp [jsSortKeys]
  | cons x rest ih =>
    intro hnd htot
    obtain ⟨hx, hnd'⟩ := List.nodup_cons.1 hnd
    refine insertCmp_pairwise compare htrans x _ ?_ ?_
    · exact ih hnd' (fun a ha b hb hne =>
        htot a (List.mem_cons_of_mem x ha) b (List.mem_cons_of_mem x hb) hne)
    · intro y hy
      have hy' : y ∈ rest := ((jsSortKeys_perm compare rest).mem_iff).1 hy
      have hne : x ≠ y := fun he => hx (he ▸ hy')
      exact htot x (List.mem_cons_self x rest) y (List.mem_cons_of_mem x hy') hne

theorem getLast?_of_pairwise_max {R : Str → Str → Prop} (u : Str)
    (hu : ∀ b, ¬ R u b) :
    ∀ l : List Str, l.Pairwise R → u ∈ l → l.getLast? = some u := by
  intro l
  induction l with
  | nil => intro _ h; exact absurd h (List.not_mem_nil u)
  | cons a t ih =>
    intro hp hm
    obtain ⟨ha, ht⟩ := List.pairwise_cons.1 hp
    rcases List.mem_cons.1 hm with rfl | hm'
    · cases t with
      | nil => rfl
      | cons b t' => exact absurd (ha b (List.mem_cons_self b t')) (hu b)
    · cases t with
      | nil => exact absurd hm' (List.not_mem_nil u)
      | cons b t' =>
        rw [List.getLast?_cons_cons]
        exact ih ht hm'

theorem jsCompare_unknown_left (cmp : Str → Str → Int) (b : Str) :
    ¬ jsCompare cmp UNKNOWN b ≤ 0 := by
  simp [jsCompare]

theorem jsCompare_trans (cmp : Str → Str → Int)
    (htrans : ∀ a b c, cmp a b ≤ 0 → cmp b c ≤ 0 → cmp a c ≤ 0) :
    ∀ a b c, jsCompare cmp a b ≤ 0 → jsCompare cmp b c ≤ 0 → jsCompare cmp a c ≤ 0 := by
  intro a b c hab hbc
  by_cases haU : a = UNKNOWN
  · exact absurd hab (haU ▸ jsCompare_unknown_left cmp b)
  · by_cases hcU : c = UNKNOWN
    · simp [jsCompare, haU, hcU]
    · by_cases hbU : b = UNKNOWN
      · exact absurd hbc (hbU ▸ jsCompare_unknown_left cmp c)
      · rw [jsCompare, if_neg haU, if_neg hcU]
        rw [jsCompare, if_neg haU, if_neg hbU] at hab
        rw [jsCompare, if_neg hbU, if_neg hcU] at hbc
        exact htrans a b c hab hbc

/-- C7: grouping invariants — for every record sequence, the sorted key
list is a permutation of the grouped view's keys, non-`UNKNOWN` keys are
pairwise ascending under the locale comparison `cmp` (assumed total and
transitive, as for `localeCompare`), `UNKNOWN` (when present) is always
last, and each group's list is duplicate-free and equals the first-seen
ordering of the raw names mapped to that key. -/
theorem grouping_invariants (cmp : Str → Str → Int)
    (htot : ∀ a b, cmp a b ≤ 0 ∨ cmp b a ≤ 0)
    (htrans : ∀ a b c, cmp a b ≤ 0 → cmp b c ≤ 0 → cmp a c ≤ 0)
    (rs : List NRecord) :
    (sortedGroupKeys cmp rs).Perm ((groupRecords rs).map (fun p => p.1)) ∧
    (sortedGroupKeys cmp rs).Pairwise
      (fun a b => a ≠ UNKNOWN → b ≠ UNKNOWN → cmp a b ≤ 0) ∧
    (UNKNOWN ∈ sortedGroupKeys cmp rs →
      (sortedGroupKeys cmp rs).getLast? = some UNKNOWN) ∧
    (∀ p ∈ groupRecords rs, p.2.Nodup ∧ p.2 = groupSpecContents rs p.1) := by
  have hkeysnd : ((groupRecords rs).map (fun p => p.1)).Nodup := by
    rw [groupRecords_keys]
    exact nodup_firstDedup _
  have hpairtot : ∀ a b : Str, a ≠ b →
      (jsCompare cmp a b ≤ 0 ∨ jsCompare cmp b a ≤ 0) := by
    intro a b hne
    by_cases haU : a = UNKNOWN
    · refine Or.inr ?_
      have hbU : ¬ b = UNKNOWN := fun hb => hne (by rw [haU, hb])
      rw [jsCompare, if_neg hbU, if_pos haU]
      omega
    · by_cases hbU : b = UNKNOWN
      · refine Or.inl ?_
        rw [jsCompare, if_neg haU, if_pos hbU]
        omega
      · rcases htot a b with h | h
        · exact Or.inl (by rw [jsCompare, if_neg haU, if_neg hbU]; exact h)
        · exact Or.inr (by rw [jsCompare, if_neg hbU, if_neg haU]; exact h)
  have hsorted : (sortedGroupKeys cmp rs).Pairwise
      (fun a b => jsCompare cmp a b ≤ 0) := by
    unfold sortedGroupKeys
    apply jsSortKeys_pairwise (jsCompare cmp) (jsCompare_trans cmp htrans)
      _ hkeysnd
    intro a _ b _ hne
    exact hpairtot a b hne
  refine ⟨jsSortKeys_perm _ _, ?_, ?_, ?_⟩
  · refine hsorted.imp ?_
    intro a b hab haU hbU
    rw [jsCompare, if_neg haU, if_neg hbU] at hab
    exact hab
  · intro hU
    exact getLast?_of_pairwise_max UNKNOWN (jsCompare_unknown_left cmp) _ hsorted hU
  · intro p hp
    rw [groupRecords_canon] at hp
    obtain ⟨k, hkmem, rfl⟩ := List.mem_map.1 hp
    exact ⟨nodup_firstDedup _, rfl⟩

/-- C7 witness: a concrete grouping whose `UNKNOWN` group sorts last. -/
theorem grouping_invariants_witness :
    (sortedGroupKeys (fun _ _ => 0)
      [⟨"a".toList, UNKNOWN⟩, ⟨"b".toList, "B".toList⟩]).getLast? = some UNKNOWN :=
  (grouping_invariants (fun _ _ => 0) (fun _ _ => Or.inl (le_refl 0))
    (fun _ _ _ _ _ => le_refl 0)
    [⟨"a".toList, UNKNOWN⟩, ⟨"b".toList, "B".toList⟩]).2.2.1 (by decide)

theorem toNat_ofNat_of_valid (n : Nat) (h : Nat.isValidChar n) : (Char.ofNat n).toNat = n := by
  rw [Char.ofNat, dif_pos h]; rfl

theorem char_toLower_idem (c : Char) : c.toLower.toLower = c.toLower := by
  unfold Char.toLower
  by_cases h : c.toNat ≥ 65 ∧ c.toNat ≤ 90
  · rw [if_pos h]
    have hv : Nat.isValidChar (c.toNat + 32) := Or.inl (by omega)
    have ht : (Char.ofNat (c.toNat + 32)).toNat = c.toNat + 32 := toNat_ofNat_of_valid _ hv
    rw [if_neg (by omega)]
  · rw [if_neg h, if_neg h]

theorem tryToken_drop (prev : Option Char) (s t : Str) (lc : Char) (rem : Str)
    (h : tryToken prev s t = some (lc, rem)) : rem = s.drop t.length := by
  rw [tryToken] at h
  by_cases hc : (boundaryBefore prev && t.isPrefixOf s && boundaryAfter (s.drop t.length)) = true
  · rw [if_pos hc] at h
    cases hg : t.getLast? with
    | none => rw [hg] at h; exact absurd h (by simp)
    | some lc' =>
      rw [hg] at h
      have hp := Option.some.inj h
      exact (congrArg Prod.snd hp).symm
  · rw [if_neg hc] at h
    exact absurd h (by simp)

theorem firstToken_drop (prev : Option Char) (s : Str) (lc : Char) (rem : Str) :
    ∀ toks : List Str, firstToken prev s toks = some (lc, rem) → ∃ n, rem = s.drop n := by
  intro toks
  induction toks with
  | nil => intro h; exact absurd h (by simp [firstToken])
  | cons t ts ih =>
    intro h
    rw [firstToken] at h
    cases ht : tryToken prev s t with
    | some r =>
      rw [ht] at h
      obtain ⟨lc', rem'⟩ := r
      cases h
      exact ⟨t.length, tryToken_drop prev s t lc rem ht⟩
    | none =>
      rw [ht] at h
      exact ih h

theorem mem_stripTokensAux (x : Char) :
    ∀ (fuel : Nat) (prev : Option Char) (s : Str), x ∈ stripTokensAux fuel prev s → x ∈ s := by
  intro fuel
  induction fuel with
  | zero => intro _ _ h; exact h
  | succ fuel ih =>
    intro prev s h
    cases s with
    | nil => simpa [stripTokensAux] using h
    | cons c rest =>
      rw [stripTokensAux] at h
      cases hm : firstToken prev (c :: rest) suffixTokens with
      | some r =>
        rw [hm] at h
        obtain ⟨lc, rem⟩ := r
        obtain ⟨n, hn⟩ := firstToken_drop prev (c :: rest) lc rem suffixTokens hm
        have := ih (some lc) rem h
        rw [hn] at this
        exact List.mem_of_mem_drop this
      | none =>
        rw [hm] at h
        rcases List.mem_cons.1 h with rfl | h'
        · exact List.mem_cons_self x rest
        · exact List.mem_cons_of_mem c (ih (some c) rest h')

theorem mem_stripTokens (x : Char) (s : Str) (h : x ∈ stripTokens s) : x ∈ s :=
  mem_stripTokensAux x s.length none s h

theorem mem_collapseWs (x : Char) :
    ∀ l : Str, x ∈ collapseWs l → (x ∈ l ∧ isWs x = false) ∨ x = ' ' := by
  intro l
  induction l with
  | nil => intro h; simp [collapseWs] at h
  | cons c rest ih =>
    intro h
    cases rest with
    | nil =>
      simp only [collapseWs, List.mem_singleton] at h
      by_cases hc : isWs c = true
      · rw [if_pos hc] at h; exact Or.inr h
      · rw [if_neg hc] at h
        exact Or.inl ⟨h ▸ List.mem_cons_self c [], h ▸ (by simpa using hc)⟩
    | cons c2 rest2 =>
      rw [collapseWs] at h
      by_cases hc : (isWs c && isWs c2) = true
      · rw [if_pos hc] at h
        rcases ih h with ⟨hm, hw⟩ | hsp
        · exact Or.inl ⟨List.mem_cons_of_mem c hm, hw⟩
        · exact Or.inr hsp
      · rw [if_neg hc] at h
        rcases List.mem_cons.1 h with rfl | h'
        · by_cases hcw : isWs c = true
          · rw [if_pos hcw]; exact Or.inr rfl
          · rw [if_neg hcw]
            exact Or.inl ⟨List.mem_cons_self c _, by simpa using hcw⟩
        · rcases ih h' with ⟨hm, hw⟩ | hsp
          · exact Or.inl ⟨List.mem_cons_of_mem c hm, hw⟩
          · exact Or.inr hsp

theorem mem_jsTrim (x : Char) (l : Str) (h : x ∈ jsTrim l) : x ∈ l := by
  rw [jsTrim] at h
  rw [List.mem_reverse] at h
  have h1 := (List.dropWhile_suffix isWs).subset h
  rw [List.mem_reverse] at h1
  exact (List.dropWhile_suffix isWs).subset h1

theorem map_eq_self_of_mem (f : Char → Char) :
    ∀ l : Str, (∀ x ∈ l, f x = x) → l.map f = l := by
  intro l
  induction l with
  | nil => intro _; rfl
  | cons a t ih =>
    intro h
    rw [List.map_cons, h a (List.mem_cons_self a t), ih (fun x hx => h x (List.mem_cons_of_mem a hx))]

theorem cleanName_chars (v : JSValue) (x : Char) (hx : x ∈ cleanName v) :
    Char.toLower x = x ∧ isPunct x = false := by
  cases v with
  | str s =>
    rw [cleanName] at hx
    by_cases hs : s.isEmpty
    · rw [if_pos hs] at hx; exact absurd hx (List.not_mem_nil x)
    · rw [if_neg hs] at hx
      have h3 := mem_jsTrim x _ hx
      rcases mem_collapseWs x _ h3 with ⟨h4, _⟩ | hsp
      · have h5 := mem_stripTokens x _ h4
        have h6 : x ∈ s.map Char.toLower := (List.mem_filter.1 h5).1
        have h7 : (fun c => !isPunct c) x = true := (List.mem_filter.1 h5).2
        obtain ⟨y, _, rfl⟩ := List.mem_map.1 h6
        exact ⟨char_toLower_idem y, by simpa using h7⟩
      · subst hsp
        exact ⟨by decide, by decide⟩
  | num n => exact absurd hx (List.not_mem_nil x)
  | bool b => exact absurd hx (List.not_mem_nil x)
  | null => exact absurd hx (List.not_mem_nil x)
  | undefined => exact absurd hx (List.not_mem_nil x)
  | obj => exact absurd hx (List.not_mem_nil x)

theorem collapse_head :
    ∀ (rest : Str) (c : Char), ∃ t, collapseWs (c :: rest) = (if isWs c then ' ' else c) :: t := by
  intro rest
  induction rest with
  | nil => intro c; exact ⟨[], rfl⟩
  | cons c2 rest2 ih =>
    intro c
    by_cases h1 : isWs c = true <;> by_cases h2 : isWs c2 = true
    · obtain ⟨t, ht⟩ := ih c2
      refine ⟨t, ?_⟩
      rw [collapseWs, if_pos (by rw [h1, h2]; rfl), ht, if_pos h1, if_pos h2]
    · exact ⟨collapseWs (c2 :: rest2), by
        rw [collapseWs, if_neg (by rw [h1, Bool.eq_false_iff.2 h2]; simp)]⟩
    · exact ⟨collapseWs (c2 :: rest2), by
        rw [collapseWs, if_neg (by rw [Bool.eq_false_iff.2 h1]; simp)]⟩
    · exact ⟨collapseWs (c2 :: rest2), by
        rw [collapseWs, if_neg (by rw [Bool.eq_false_iff.2 h1]; simp)]⟩

theorem collapse_chain :
    ∀ l : Str, (collapseWs l).Chain' (fun a b => ¬(isWs a = true ∧ isWs b = true)) := by
  intro l
  induction l with
  | nil => simp [collapseWs]
  | cons c rest ih =>
    cases rest with
    | nil => simp [collapseWs]
    | cons c2 rest2 =>
      by_cases hc : (isWs c && isWs c2) = true
      · rw [collapseWs, if_pos hc]; exact ih
      · rw [collapseWs, if_neg hc]
        obtain ⟨t, ht⟩ := collapse_head rest2 c2
        rw [ht]
        rw [ht] at ih
        refine List.chain'_cons.2 ⟨?_, ih⟩
        by_cases h1 : isWs c = true <;> by_cases h2 : isWs c2 = true
        · exact absurd (by rw [h1, h2]; rfl) hc
        · simp [h1, h2]
        · simp [h1]
        · simp [h1]

theorem collapse_noop :
    ∀ l : Str, (∀ x ∈ l, isWs x = true → x = ' ') →
      l.Chain' (fun a b => ¬(isWs a = true ∧ isWs b = true)) → collapseWs l = l := by
  intro l
  induction l with
  | nil => intro _ _; rfl
  | cons c rest ih =>
    intro hws hch
    cases rest with
    | nil =>
      rw [collapseWs]
      by_cases hc : isWs c = true
      · rw [if_pos hc, hws c (List.mem_cons_self c []) hc]
      · rw [if_neg hc]
    | cons c2 rest2 =>
      have hnot : ¬(isWs c = true ∧ isWs c2 = true) := (List.chain'_cons.1 hch).1
      have hcc : (isWs c && isWs c2) = false := by
        by_cases h1 : isWs c = true <;> by_cases h2 : isWs c2 = true
        · exact absurd ⟨h1, h2⟩ hnot
        all_goals simp [h1, h2]
      rw [collapseWs, if_neg (by rw [hcc]; simp)]
      have htail := ih (fun x hx hw => hws x (List.mem_cons_of_mem c hx) hw)
        (List.chain'_cons.1 hch).2
      rw [htail]
      by_cases hc : isWs c = true
      · rw [if_pos hc, hws c (List.mem_cons_self c _) hc]
      · rw [if_neg hc]

theorem chain_dropWhile (p : Char → Bool) (l : Str)
    (h : l.Chain' (fun a b => ¬(isWs a = true ∧ isWs b = true))) :
    (l.dropWhile p).Chain' (fun a b => ¬(isWs a = true ∧ isWs b = true)) :=
  List.Chain'.suffix h (List.dropWhile_suffix p)

theorem chain_reverse_ws (l : Str)
    (h : l.Chain' (fun a b => ¬(isWs a = true ∧ isWs b = true))) :
    l.reverse.Chain' (fun a b => ¬(isWs a = true ∧ isWs b = true)) := by
  rw [List.chain'_reverse]
  refine h.imp ?_
  intro a b hab
  exact fun ⟨x, y⟩ => hab ⟨y, x⟩

theorem chain_jsTrim (l : Str)
    (h : l.Chain' (fun a b => ¬(isWs a = true ∧ isWs b = true))) :
    (jsTrim l).Chain' (fun a b => ¬(isWs a = true ∧ isWs b = true)) := by
  rw [jsTrim]
  exact chain_reverse_ws _ (chain_dropWhile isWs _ (chain_reverse_ws _ (chain_dropWhile isWs l h)))

theorem head_dropWhile_false (p : Char → Bool) :
    ∀ (l : Str) (c : Char), (l.dropWhile p).head? = some c → p c = false := by
  intro l
  induction l with
  | nil => intro c h; exact absurd h (by simp)
  | cons a l' ih =>
    intro c h
    by_cases hp : p a = true
    · rw [List.dropWhile_cons, if_pos hp] at h
      exact ih c h
    · rw [List.dropWhile_cons, if_neg hp] at h
      have : a = c := by simpa using h
      rw [← this]
      simpa using hp

theorem dropWhile_eq_self_of_head (p : Char → Bool) (l : Str)
    (h : ∀ c, l.head? = some c → p c = false) : l.dropWhile p = l := by
  cases l with
  | nil => rfl
  | cons a l' =>
    rw [List.dropWhile_cons, if_neg (by rw [h a rfl]; simp)]

theorem trim_noop (l : Str)
    (hh : ∀ c, l.head? = some c → isWs c = false)
    (hl : ∀ c, l.getLast? = some c → isWs c = false) : jsTrim l = l := by
  rw [jsTrim, dropWhile_eq_self_of_head isWs l hh,
    dropWhile_eq_self_of_head isWs l.reverse (fun c hc => hl c (by rwa [List.head?_reverse] at hc)),
    List.reverse_reverse]

theorem jsTrim_getLast_not_ws (l : Str) (c : Char) (hc : (jsTrim l).getLast? = some c) :
    isWs c = false := by
  rw [jsTrim] at hc
  rw [← List.head?_reverse, List.reverse_reverse] at hc
  exact head_dropWhile_false isWs _ c hc

theorem jsTrim_head_not_ws (l : Str) (c : Char) (hc : (jsTrim l).head? = some c) :
    isWs c = false := by
  obtain ⟨w, hw⟩ := List.dropWhile_suffix (l := (l.dropWhile isWs).reverse) isWs
  have ht : l.dropWhile isWs = jsTrim l ++ w.reverse := by
    have h2 : (l.dropWhile isWs).reverse.reverse =
        (w ++ List.dropWhile isWs (l.dropWhile isWs).reverse).reverse := by rw [hw]
    rw [List.reverse_reverse, List.reverse_append] at h2
    rw [h2, jsTrim]
  cases hu : jsTrim l with
  | nil => rw [hu] at hc; exact absurd hc (by simp)
  | cons u0 us =>
    rw [hu] at hc
    have he : u0 = c := by simpa using hc
    subst he
    have hh : (l.dropWhile isWs).head? = some u0 := by
      rw [ht, hu]; rfl
    exact head_dropWhile_false isWs l u0 hh

/-- C4 amended: `canonicalize` is idempotent on exactly those strings
whose canonical form the suffix-removal pass leaves unchanged (the pass is
a no-op on the canonical form unless punctuation removal or whitespace
collapse created a newly-adjacent whole-word `national association` pair,
the only multi-word token). Under that hypothesis the lower-casing,
punctuation-removal, whitespace-collapse and trim passes are all proved to
fix the canonical form, so a second canonicalization returns it unchanged. -/
theorem canonicalize_idem_amended (s : Str)
    (h : stripTokens (cleanName (.str s)) = cleanName (.str s)) :
    cleanName (.str (cleanName (.str s))) = cleanName (.str s) := by
  by_cases hcnil : (cleanName (.str s)).isEmpty = true
  · have hnil : cleanName (.str s) = [] := by simpa using hcnil
    rw [hnil]
    rfl
  · have hcfalse : (cleanName (.str s)).isEmpty = false := by
      simpa using hcnil
    have hs : ¬ s.isEmpty = true := by
      intro hse
      apply hcnil
      simp [cleanName, hse]
    have hstruct : cleanName (.str s) =
        jsTrim (collapseWs (stripTokens ((s.map Char.toLower).filter (fun c => !isPunct c)))) := by
      simp [cleanName, hs]
    have hgoal : cleanName (.str (cleanName (.str s))) =
        if (cleanName (.str s)).isEmpty then []
        else jsTrim (collapseWs (stripTokens (((cleanName (.str s)).map Char.toLower).filter
          (fun c => !isPunct c)))) := rfl
    rw [hgoal]
    simp only [hcfalse, Bool.false_eq_true, if_false]
    have hlower : (cleanName (.str s)).map Char.toLower = cleanName (.str s) :=
      map_eq_self_of_mem _ _ (fun x hx => (cleanName_chars _ x hx).1)
    have hpunct : (cleanName (.str s)).filter (fun c => !isPunct c) = cleanName (.str s) :=
      List.filter_eq_self.2 (fun a ha => by simp [(cleanName_chars _ a ha).2])
    rw [hlower, hpunct, h]
    have hwsP : ∀ x ∈ cleanName (.str s), isWs x = true → x = ' ' := by
      intro x hx hw
      rw [hstruct] at hx
      have h1 := mem_jsTrim x _ hx
      rcases mem_collapseWs x _ h1 with ⟨_, hfalse⟩ | hsp
      · exact absurd hw (by simp [hfalse])
      · exact hsp
    have hchain : (cleanName (.str s)).Chain' (fun a b => ¬(isWs a = true ∧ isWs b = true)) := by
      rw [hstruct]
      exact chain_jsTrim _ (collapse_chain _)
    rw [collapse_noop _ hwsP hchain]
    refine trim_noop _ (fun c hc => ?_) (fun c hc => ?_)
    · rw [hstruct] at hc
      exact jsTrim_head_not_ws _ c hc
    · rw [hstruct] at hc
      exact jsTrim_getLast_not_ws _ c hc

/-- C4 witness: `"Acme Bank."` canonicalizes to `"acme"`, on which the
suffix pass is a no-op, so canonicalization is idempotent there. -/
theorem canonicalize_idem_witness :
    cleanName (.str (cleanName (.str "Acme Bank.".toList))) =
      cleanName (.str "Acme Bank.".toList) :=
  canonicalize_idem_amended "Acme Bank.".toList (by decide)
